import Mathlib

/-!
Verification of the AVL-tree core of the c-AVL repository (avl.c / avl.h).

The C data model is a binary tree of heap nodes
`Node { char *word; int count; Node *left; Node *right; int height; }`
anchored by `Tree { Node *root; }`.  We embed a `Node*` as an inductive
`Tree` whose `nil` constructor models the NULL pointer, so the `Tree`
struct and a `Node*` share one Lean type.  `char*` keys become `String`
(strcmp's byte-lexicographic order coincides with `String`'s order on
the ASCII keys the program manipulates), `int` fields become `Int`.

The single impure ingredient, `rand() % 2` in the two-child branch of
`deleteAux`, is made explicit: `deleteAux` consumes a supply of booleans
(`List Bool`), taking the head whenever the C code calls `rand`.  The
`printf` reporting "not found" in the failure branches of `deleteAux` /
`deleteFromTree` is modelled as a boolean component of the result.
-/

namespace AVL

/-- Embedding of `Node*`: `nil` is the NULL pointer, `node word count height
left right` is a heap node (field order as in avl.h, height last). -/
inductive Tree where
  | nil : Tree
  | node (word : String) (count : Int) (height : Int) (left right : Tree) : Tree
  deriving Repr, DecidableEq

/-- Source `max` from avl.c: `(a > b) ? a : b`. -/
def max (a b : Int) : Int := if a > b then a else b

/-- Source `height`: stored height field, 0 for a NULL node. -/
def height : Tree → Int
  | .nil => 0
  | .node _ _ h _ _ => h

/-- Source `getBalance`: stored-height balance factor, 0 for a NULL node. -/
def getBalance : Tree → Int
  | .nil => 0
  | .node _ _ _ l r => height l - height r

/-- Byte-wise lexicographic comparison underlying `strcmp`, on the character
sequences of the two keys (for UTF-8 data, code-point order and byte order
coincide; the program's keys are ASCII).  Sign-faithful: avl.c only ever
inspects the sign of `strcmp`, so the result is normalised to -1/0/1. -/
def strcmpChars : List Char → List Char → Int
  | [], [] => 0
  | [], _ :: _ => -1
  | _ :: _, [] => 1
  | a :: as, b :: bs =>
    if a < b then -1
    else if b < a then 1
    else strcmpChars as bs

/-- Sign-faithful model of `strcmp(a, b)`: negative iff `a < b`, positive iff
`a > b`, zero iff the keys are equal. -/
def strcmp (a b : String) : Int :=
  strcmpChars a.data b.data

/-- Source `createNode`: fresh leaf with count 1, height 1, no children. -/
def createNode (word : String) : Tree :=
  .node word 1 1 .nil .nil

/-- Accessor for `node->word` (the C code only dereferences it on non-NULL
nodes; the `nil` value is arbitrary). -/
def wordOf : Tree → String
  | .nil => ""
  | .node w _ _ _ _ => w

/-- Accessor for `node->count`. -/
def countOf : Tree → Int
  | .nil => 0
  | .node _ c _ _ _ => c

/-- Accessor for `node->left`. -/
def leftOf : Tree → Tree
  | .nil => .nil
  | .node _ _ _ l _ => l

/-- Accessor for `node->right`. -/
def rightOf : Tree → Tree
  | .nil => .nil
  | .node _ _ _ _ r => r

/-- Replace the left child, modelling the C statement `root->left = x`. -/
def setLeft : Tree → Tree → Tree
  | .nil, _ => .nil
  | .node w c h _ r, x => .node w c h x r

/-- Replace the right child, modelling the C statement `root->right = x`. -/
def setRight : Tree → Tree → Tree
  | .nil, _ => .nil
  | .node w c h l _, x => .node w c h l x

/-- Source `rotateLeft`.  The C precondition is a non-NULL root with a
non-NULL right child; outside the precondition (where C would dereference
NULL) the tree is returned unchanged.  Heights of the two re-parented nodes
are recomputed child-before-parent exactly as in the source. -/
def rotateLeft : Tree → Tree
  | .nil => .nil
  | .node w c h l r =>
    match r with
    | .nil => .node w c h l r
    | .node rw rc _ rl rr =>
      let newLeft := Tree.node w c (max (height l) (height rl) + 1) l rl
      Tree.node rw rc (max (height newLeft) (height rr) + 1) newLeft rr

/-- Source `rotateRight`, mirror image of `rotateLeft`. -/
def rotateRight : Tree → Tree
  | .nil => .nil
  | .node w c h l r =>
    match l with
    | .nil => .node w c h l r
    | .node lw lc _ ll lr =>
      let newRight := Tree.node w c (max (height lr) (height r) + 1) lr r
      Tree.node lw lc (max (height ll) (height newRight) + 1) ll newRight

/-- Source `rebalance`: the four-way case split of avl.c, lines 488-527.
Note the strict comparisons `> 0` / `< 0` on the child's balance factor,
exactly as written in the C source. -/
def rebalance (root : Tree) : Tree :=
  match root with
  | .nil => .nil
  | .node w c h l r =>
    let balance := getBalance (.node w c h l r)
    if balance > 1 ∧ getBalance l > 0 then
      rotateRight (.node w c h l r)
    else if balance < -1 ∧ getBalance r < 0 then
      rotateLeft (.node w c h l r)
    else if balance > 1 ∧ getBalance l < 0 then
      rotateRight (.node w c h (rotateLeft l) r)
    else if balance < -1 ∧ getBalance r > 0 then
      rotateLeft (.node w c h l (rotateRight r))
    else
      .node w c h l r

/-- Source `insertAux`: BST descent, count increment on an equal key, height
update and rebalance on the return path. -/
def insertAux : Tree → String → Tree
  | .nil, word => createNode word
  | .node w c h l r, word =>
    let cmp := strcmp word w
    if cmp > 0 then
      let r' := insertAux r word
      rebalance (.node w c (max (height l) (height r') + 1) l r')
    else if cmp < 0 then
      let l' := insertAux l word
      rebalance (.node w c (max (height l') (height r) + 1) l' r)
    else
      rebalance (.node w (c + 1) (max (height l) (height r) + 1) l r)

/-- Source `insert` (tree-level wrapper). -/
def insert (t : Tree) (word : String) : Tree :=
  match t with
  | .nil => createNode word
  | root => insertAux root word

/-- Source `searchAux`: pure BST descent returning the matched node
(`Node*`) or `none` (NULL). -/
def searchAux : Tree → String → Option Tree
  | .nil, _ => none
  | .node w c h l r, word =>
    let cmp := strcmp word w
    if cmp > 0 then searchAux r word
    else if cmp < 0 then searchAux l word
    else some (.node w c h l r)

/-- Source `search` (tree-level wrapper). -/
def search (t : Tree) (word : String) : Option Tree :=
  match t with
  | .nil => none
  | root => searchAux root word

/-- Source `largestIn`: rightmost descendant (precondition: non-NULL). -/
def largestIn : Tree → Tree
  | .nil => .nil
  | .node w c h l r =>
    match r with
    | .nil => .node w c h l r
    | .node rw rc rh rl rr => largestIn (.node rw rc rh rl rr)

/-- Source `smallestIn`: leftmost descendant (precondition: non-NULL). -/
def smallestIn : Tree → Tree
  | .nil => .nil
  | .node w c h l r =>
    match l with
    | .nil => .node w c h l r
    | .node lw lc lh ll lr => smallestIn (.node lw lc lh ll lr)

/-- Source `deleteAux`.  Arguments beyond the C signature: the `List Bool`
is the injected stream feeding `rand() % 2` (head consumed at each call,
`true` meaning nonzero, i.e. the "promote from the right" branch).  The
result's last component records whether a "not found" report was printed
anywhere during the call.  The branch structure, early returns, height
update and rebalance mirror avl.c lines 298-387 exactly - including the
"promote from the left" branch, which reads `largestIn(root->right)` and
then force-deletes that word from `root->left`. -/
def deleteAux : Tree → String → Bool → List Bool → Tree × List Bool × Bool
  | .nil, _, _, s => (.nil, s, true)
  | .node w c h l r, word, forceful, s =>
    let cmp := strcmp word w
    if cmp > 0 then
      let res := deleteAux r word forceful s
      (rebalance (.node w c (max (height l) (height res.1) + 1) l res.1), res.2)
    else if cmp < 0 then
      let res := deleteAux l word forceful s
      (rebalance (.node w c (max (height res.1) (height r) + 1) res.1 r), res.2)
    else
      if c = 1 ∨ forceful then
        match l, r with
        | .node lw lc lh ll lr, .node rw rc rh rl rr =>
          let path := s.headD true
          let s1 := s.tail
          if path then
            let temp := smallestIn (.node rw rc rh rl rr)
            let res := deleteAux (.node rw rc rh rl rr) (wordOf temp) true s1
            (rebalance (.node (wordOf temp) (countOf temp)
              (max (height (.node lw lc lh ll lr)) (height res.1) + 1)
              (.node lw lc lh ll lr) res.1), res.2)
          else
            let temp := largestIn (.node rw rc rh rl rr)
            let res := deleteAux (.node lw lc lh ll lr) (wordOf temp) true s1
            (rebalance (.node (wordOf temp) (countOf temp)
              (max (height res.1) (height (.node rw rc rh rl rr)) + 1)
              res.1 (.node rw rc rh rl rr)), res.2)
        | .node lw lc lh ll lr, .nil => (.node lw lc lh ll lr, s, false)
        | .nil, .node rw rc rh rl rr => (.node rw rc rh rl rr, s, false)
        | .nil, .nil => (.nil, s, false)
      else
        (.node w (c - 1) h l r, s, false)

/-- Source `deleteFromTree` (tree-level wrapper; an empty tree prints a
"cannot remove" report, modelled by the `true` flag). -/
def deleteFromTree (t : Tree) (word : String) (s : List Bool) :
    Tree × List Bool × Bool :=
  match t with
  | .nil => (.nil, s, true)
  | root => deleteAux root word false s

/-- In-order key sequence, the order printed by `printInOrder`. -/
def keys : Tree → List String
  | .nil => []
  | .node w _ _ l r => keys l ++ w :: keys r

/-- True height of a subtree: 0 for NULL, otherwise 1 + max of children. -/
def realHeight : Tree → Int
  | .nil => 0
  | .node _ _ _ l r => max (realHeight l) (realHeight r) + 1

/-- Every stored `height` field equals the true subtree height. -/
def heightsOk : Tree → Bool
  | .nil => true
  | .node _ _ h l r =>
    (decide (h = max (realHeight l) (realHeight r) + 1)) &&
      heightsOk l && heightsOk r

/-- AVL balance: at every node, true child heights differ by at most 1. -/
def avlBalanced : Tree → Bool
  | .nil => true
  | .node _ _ _ l r =>
    (decide (realHeight l - realHeight r ≤ 1)) &&
      (decide (realHeight r - realHeight l ≤ 1)) &&
      avlBalanced l && avlBalanced r

/-- BST order: at every node, the left keys compare strictly below the
node's key and the right keys strictly above, in `strcmp` order. -/
def ordered : Tree → Bool
  | .nil => true
  | .node w _ _ l r =>
    (keys l).all (fun x => decide (strcmp x w < 0)) &&
      (keys r).all (fun x => decide (strcmp w x < 0)) &&
      ordered l && ordered r

/-- Total multiplicity recorded for a key: the sum of the `count` fields of
all nodes holding that key (a BST-ordered tree has at most one such node). -/
def countIn : Tree → String → Int
  | .nil, _ => 0
  | .node w c _ l r, k => (if w = k then c else 0) + countIn l k + countIn r k

/-- Number of nodes holding a given key. -/
def occs : Tree → String → Nat
  | .nil, _ => 0
  | .node w _ _ l r, k => (if w = k then 1 else 0) + occs l k + occs r k

/-- Fold a list of words into the tree with `insert`. -/
def insertList (t : Tree) (ws : List String) : Tree :=
  ws.foldl AVL.insert t

/-- Insert the same word n times. -/
def insertTimes (t : Tree) (word : String) : Nat → Tree
  | 0 => t
  | n + 1 => AVL.insert (insertTimes t word n) word

/-- Modelled from the spec: "if `key` is present with `count > 1`, decrement
`count` and stop (no structural change)" - the reference tree for the
decrement case of delete: descend as the code does, decrement the matched
node's count, change nothing else. -/
def decCount : Tree → String → Tree
  | .nil, _ => .nil
  | .node w c h l r, k =>
    if strcmp k w > 0 then .node w c h l (decCount r k)
    else if strcmp k w < 0 then .node w c h (decCount l k) r
    else .node w (c - 1) h l r

/-- Instrumented `rebalance`: identical case split, additionally counting
the `rotateRight` and `rotateLeft` calls performed (in that order). -/
def rebalanceC (root : Tree) : Tree × Nat × Nat :=
  match root with
  | .nil => (.nil, 0, 0)
  | .node w c h l r =>
    let balance := getBalance (.node w c h l r)
    if balance > 1 ∧ getBalance l > 0 then
      (rotateRight (.node w c h l r), 1, 0)
    else if balance < -1 ∧ getBalance r < 0 then
      (rotateLeft (.node w c h l r), 0, 1)
    else if balance > 1 ∧ getBalance l < 0 then
      (rotateRight (.node w c h (rotateLeft l) r), 1, 1)
    else if balance < -1 ∧ getBalance r > 0 then
      (rotateLeft (.node w c h l (rotateRight r)), 1, 1)
    else
      (.node w c h l r, 0, 0)

/-- Instrumented `insertAux`: same computation as `insertAux`, additionally
returning how many `rotateRight` and `rotateLeft` calls the insertion
triggered. -/
def insertAuxC : Tree → String → Tree × Nat × Nat
  | .nil, word => (createNode word, 0, 0)
  | .node w c h l r, word =>
    let cmp := strcmp word w
    if cmp > 0 then
      let res := insertAuxC r word
      let reb := rebalanceC (.node w c (max (height l) (height res.1) + 1) l res.1)
      (reb.1, res.2.1 + reb.2.1, res.2.2 + reb.2.2)
    else if cmp < 0 then
      let res := insertAuxC l word
      let reb := rebalanceC (.node w c (max (height res.1) (height r) + 1) res.1 r)
      (reb.1, res.2.1 + reb.2.1, res.2.2 + reb.2.2)
    else
      let reb := rebalanceC (.node w (c + 1) (max (height l) (height r) + 1) l r)
      (reb.1, reb.2)

/-- Instrumented `insert` wrapper. -/
def insertC (t : Tree) (word : String) : Tree × Nat × Nat :=
  match t with
  | .nil => (createNode word, 0, 0)
  | root => insertAuxC root word

/-! ### Order facts about `strcmp` -/

theorem strcmpChars_self (as : List Char) : strcmpChars as as = 0 := by
  induction as with
  | nil => rfl
  | cons a as ih => simp [strcmpChars, ih]

theorem strcmpChars_cases (as bs : List Char) :
    strcmpChars as bs = -1 ∨ strcmpChars as bs = 0 ∨ strcmpChars as bs = 1 := by
  induction as generalizing bs with
  | nil => cases bs <;> simp [strcmpChars]
  | cons a as ih =>
    cases bs with
    | nil => simp [strcmpChars]
    | cons b bs =>
      rcases lt_trichotomy a b with hab | hab | hab
      · simp [strcmpChars, hab]
      · subst hab
        simpa [strcmpChars] using ih bs
      · simp [strcmpChars, hab, asymm hab]

theorem strcmpChars_eq_zero {as bs : List Char} (h : strcmpChars as bs = 0) :
    as = bs := by
  induction as generalizing bs with
  | nil =>
    cases bs with
    | nil => rfl
    | cons b bs => simp [strcmpChars] at h
  | cons a as ih =>
    cases bs with
    | nil => simp [strcmpChars] at h
    | cons b bs =>
      rcases lt_trichotomy a b with hab | hab | hab
      · simp [strcmpChars, hab] at h
      · subst hab
        simp only [strcmpChars, lt_irrefl, if_neg (lt_irrefl a)] at h
        simp [ih h]
      · simp [strcmpChars, hab, asymm hab] at h

theorem strcmpChars_swap (as bs : List Char) :
    strcmpChars bs as = -strcmpChars as bs := by
  induction as generalizing bs with
  | nil => cases bs <;> simp [strcmpChars]
  | cons a as ih =>
    cases bs with
    | nil => simp [strcmpChars]
    | cons b bs =>
      rcases lt_trichotomy a b with hab | hab | hab
      · simp [strcmpChars, hab, asymm hab]
      · subst hab
        simp [strcmpChars, ih]
      · simp [strcmpChars, hab, asymm hab]

theorem strcmpChars_trans {as bs cs : List Char}
    (h1 : strcmpChars as bs < 0) (h2 : strcmpChars bs cs < 0) :
    strcmpChars as cs < 0 := by
  induction as generalizing bs cs with
  | nil =>
    cases bs with
    | nil => simp [strcmpChars] at h1
    | cons b bs =>
      cases cs with
      | nil => simp [strcmpChars] at h2
      | cons c cs => simp [strcmpChars]
  | cons a as ih =>
    cases bs with
    | nil => simp [strcmpChars] at h1
    | cons b bs =>
      cases cs with
      | nil => simp [strcmpChars] at h2
      | cons c cs =>
        rcases lt_trichotomy a b with hab | hab | hab
        · rcases lt_trichotomy b c with hbc | hbc | hbc
          · simp [strcmpChars, lt_trans hab hbc]
          · subst hbc
            simp [strcmpChars, hab]
          · simp [strcmpChars, hbc, asymm hbc] at h2
        · subst hab
          rcases lt_trichotomy a c with hac | hac | hac
          · simp [strcmpChars, hac]
          · subst hac
            simp only [strcmpChars, lt_irrefl, if_neg (lt_irrefl a)] at h1 h2 ⊢
            exact ih h1 h2
          · simp [strcmpChars, hac, asymm hac] at h2
        · simp [strcmpChars, hab, asymm hab] at h1

theorem strcmp_self (a : String) : strcmp a a = 0 :=
  strcmpChars_self a.data

theorem strcmp_eq_zero {a b : String} (h : strcmp a b = 0) : a = b := by
  have hd : a.data = b.data := strcmpChars_eq_zero h
  cases a
  cases b
  exact congrArg String.mk hd

theorem strcmp_cases (a b : String) :
    strcmp a b = -1 ∨ strcmp a b = 0 ∨ strcmp a b = 1 :=
  strcmpChars_cases a.data b.data

theorem strcmp_swap (a b : String) : strcmp b a = -strcmp a b :=
  strcmpChars_swap a.data b.data

theorem strcmp_trans {a b c : String} (h1 : strcmp a b < 0)
    (h2 : strcmp b c < 0) : strcmp a c < 0 :=
  strcmpChars_trans h1 h2

theorem strcmp_eq_of_not_lt_gt {a b : String} (h1 : ¬ strcmp a b > 0)
    (h2 : ¬ strcmp a b < 0) : a = b := by
  apply strcmp_eq_zero
  rcases strcmp_cases a b with h | h | h <;> omega

theorem strcmp_pos_iff {a b : String} : strcmp a b > 0 ↔ strcmp b a < 0 := by
  have := strcmp_swap a b
  omega

theorem strcmp_ne_of_lt {a b : String} (h : strcmp a b < 0) : a ≠ b := by
  intro he
  subst he
  simp [strcmp_self] at h

theorem strcmp_asymm {a b : String} (h : strcmp a b < 0) : ¬ strcmp b a < 0 := by
  have := strcmp_swap a b
  omega

/-! ### Unfolding the boolean invariants -/

theorem mem_keys_node {k w : String} {c h : Int} {l r : Tree} :
    k ∈ keys (.node w c h l r) ↔ k ∈ keys l ∨ k = w ∨ k ∈ keys r := by
  simp [keys]

theorem ordered_node {w : String} {c h : Int} {l r : Tree} :
    ordered (.node w c h l r) = true ↔
      (∀ x ∈ keys l, strcmp x w < 0) ∧ (∀ x ∈ keys r, strcmp w x < 0) ∧
        ordered l = true ∧ ordered r = true := by
  simp [ordered, List.all_eq_true, Bool.and_eq_true, decide_eq_true_iff, and_assoc]

theorem heightsOk_node {w : String} {c h : Int} {l r : Tree} :
    heightsOk (.node w c h l r) = true ↔
      h = max (realHeight l) (realHeight r) + 1 ∧
        heightsOk l = true ∧ heightsOk r = true := by
  simp [heightsOk, Bool.and_eq_true, decide_eq_true_iff, and_assoc]

theorem avlBalanced_node {w : String} {c h : Int} {l r : Tree} :
    avlBalanced (.node w c h l r) = true ↔
      realHeight l - realHeight r ≤ 1 ∧ realHeight r - realHeight l ≤ 1 ∧
        avlBalanced l = true ∧ avlBalanced r = true := by
  simp [avlBalanced, Bool.and_eq_true, decide_eq_true_iff, and_assoc]

theorem height_eq_realHeight {t : Tree} (h : heightsOk t = true) :
    height t = realHeight t := by
  cases t with
  | nil => rfl
  | node w c hh l r =>
    have := heightsOk_node.mp h
    simp [height, realHeight, this.1]

theorem realHeight_nonneg (t : Tree) : 0 ≤ realHeight t := by
  induction t with
  | nil => simp [realHeight]
  | node w c h l r ihl ihr =>
    simp only [realHeight, max]
    split <;> omega

theorem realHeight_pos_ne_nil {t : Tree} (h : 0 < realHeight t) : t ≠ .nil := by
  intro he
  subst he
  simp [realHeight] at h

/-! ### Rotations and rebalance preserve the in-order contents -/

theorem keys_rotateLeft (t : Tree) : keys (rotateLeft t) = keys t := by
  cases t with
  | nil => rfl
  | node w c h l r =>
    cases r with
    | nil => rfl
    | node rw rc rh rl rr => simp [rotateLeft, keys]

theorem keys_rotateRight (t : Tree) : keys (rotateRight t) = keys t := by
  cases t with
  | nil => rfl
  | node w c h l r =>
    cases l with
    | nil => rfl
    | node lw lc lh ll lr => simp [rotateRight, keys]

theorem keys_rebalance (t : Tree) : keys (rebalance t) = keys t := by
  cases t with
  | nil => rfl
  | node w c h l r =>
    simp only [rebalance]
    repeat' split
    all_goals
      simp [keys, keys_rotateLeft, keys_rotateRight]

theorem countIn_rotateLeft (t : Tree) (k : String) :
    countIn (rotateLeft t) k = countIn t k := by
  cases t with
  | nil => rfl
  | node w c h l r =>
    cases r with
    | nil => rfl
    | node rw rc rh rl rr =>
      simp only [rotateLeft, countIn]
      ring

theorem countIn_rotateRight (t : Tree) (k : String) :
    countIn (rotateRight t) k = countIn t k := by
  cases t with
  | nil => rfl
  | node w c h l r =>
    cases l with
    | nil => rfl
    | node lw lc lh ll lr =>
      simp only [rotateRight, countIn]
      ring

theorem countIn_rebalance (t : Tree) (k : String) :
    countIn (rebalance t) k = countIn t k := by
  cases t with
  | nil => rfl
  | node w c h l r =>
    simp only [rebalance]
    repeat' split
    all_goals
      simp [countIn, countIn_rotateLeft, countIn_rotateRight]

theorem rebalance_id {w : String} {c h : Int} {l r : Tree}
    (hb1 : -1 ≤ height l - height r) (hb2 : height l - height r ≤ 1) :
    rebalance (.node w c h l r) = .node w c h l r := by
  have hg : getBalance (.node w c h l r) = height l - height r := rfl
  simp only [rebalance, hg]
  rw [if_neg (by omega), if_neg (by omega), if_neg (by omega), if_neg (by omega)]

/-! ### Membership and count helpers -/

theorem countIn_eq_zero {t : Tree} {k : String} (h : k ∉ keys t) :
    countIn t k = 0 := by
  induction t with
  | nil => rfl
  | node w c hh l r ihl ihr =>
    rw [mem_keys_node] at h
    push_neg at h
    simp [countIn, ihl h.1, ihr h.2.2, Ne.symm h.2.1]

theorem occs_eq_zero {t : Tree} {k : String} (h : k ∉ keys t) : occs t k = 0 := by
  induction t with
  | nil => rfl
  | node w c hh l r ihl ihr =>
    rw [mem_keys_node] at h
    push_neg at h
    simp [occs, ihl h.1, ihr h.2.2, Ne.symm h.2.1]

theorem not_mem_right_of_lt {r : Tree} {w k : String}
    (hb : ∀ x ∈ keys r, strcmp w x < 0) (hk : strcmp k w < 0) : k ∉ keys r := by
  intro hm
  exact strcmp_asymm (hb k hm) hk

theorem not_mem_left_of_gt {l : Tree} {w k : String}
    (hb : ∀ x ∈ keys l, strcmp x w < 0) (hk : strcmp w k < 0) : k ∉ keys l := by
  intro hm
  exact strcmp_asymm (hb k hm) hk

theorem not_mem_self_left {l : Tree} {w : String}
    (hb : ∀ x ∈ keys l, strcmp x w < 0) : w ∉ keys l := by
  intro hm
  have := hb w hm
  simp [strcmp_self] at this

theorem not_mem_self_right {r : Tree} {w : String}
    (hb : ∀ x ∈ keys r, strcmp w x < 0) : w ∉ keys r := by
  intro hm
  have := hb w hm
  simp [strcmp_self] at this

theorem smallestIn_word_mem : ∀ {t : Tree}, t ≠ .nil →
    wordOf (smallestIn t) ∈ keys t := by
  intro t
  induction t with
  | nil => intro h; exact absurd rfl h
  | node w c h l r ihl ihr =>
    intro _
    cases l with
    | nil => simp [smallestIn, wordOf, mem_keys_node]
    | node lw lc lh ll lr =>
      have hmem := ihl (by simp)
      rw [mem_keys_node]
      exact Or.inl (by simpa [smallestIn] using hmem)

theorem largestIn_word_mem : ∀ {t : Tree}, t ≠ .nil →
    wordOf (largestIn t) ∈ keys t := by
  intro t
  induction t with
  | nil => intro h; exact absurd rfl h
  | node w c h l r ihl ihr =>
    intro _
    cases r with
    | nil => simp [largestIn, wordOf, mem_keys_node]
    | node rw rc rh rl rr =>
      have hmem := ihr (by simp)
      rw [mem_keys_node]
      exact Or.inr (Or.inr (by simpa [largestIn] using hmem))

/-! ### Search lemmas -/

theorem search_eq_searchAux (t : Tree) (k : String) :
    search t k = searchAux t k := by
  cases t <;> rfl

theorem searchAux_not_mem {t : Tree} {k : String} (h : k ∉ keys t) :
    searchAux t k = none := by
  induction t with
  | nil => rfl
  | node w c hh l r ihl ihr =>
    rw [mem_keys_node] at h
    push_neg at h
    rcases strcmp_cases k w with hc | hc | hc
    · simp only [searchAux]
      rw [if_neg (by omega), if_pos (by omega)]
      exact ihl h.1
    · exact absurd (strcmp_eq_zero hc) h.2.1
    · simp only [searchAux]
      rw [if_pos (by omega)]
      exact ihr h.2.2

theorem searchAux_found {t : Tree} {k : String} (ho : ordered t = true)
    (hm : k ∈ keys t) :
    ∃ nd, searchAux t k = some nd ∧ wordOf nd = k ∧ countOf nd = countIn t k := by
  induction t with
  | nil => simp [keys] at hm
  | node w c h l r ihl ihr =>
    obtain ⟨hbl, hbr, hol, hor⟩ := ordered_node.mp ho
    rw [mem_keys_node] at hm
    rcases hm with hm | hm | hm
    · have hlt : strcmp k w < 0 := hbl k hm
      have hnr : k ∉ keys r := not_mem_right_of_lt hbr hlt
      have hkw : k ≠ w := strcmp_ne_of_lt hlt
      obtain ⟨nd, hs, hw, hc⟩ := ihl hol hm
      refine ⟨nd, ?_, hw, ?_⟩
      · simp only [searchAux]
        rw [if_neg (by omega), if_pos hlt]
        exact hs
      · have heq : countIn (Tree.node w c h l r) k = countIn l k := by
          simp [countIn, countIn_eq_zero hnr, Ne.symm hkw]
        rw [heq]
        exact hc
    · subst hm
      have h0 : strcmp k k = 0 := strcmp_self k
      refine ⟨Tree.node k c h l r, ?_, rfl, ?_⟩
      · simp only [searchAux]
        rw [if_neg (by omega), if_neg (by omega)]
      · have hnl : k ∉ keys l := not_mem_self_left hbl
        have hnr : k ∉ keys r := not_mem_self_right hbr
        simp [countOf, countIn, countIn_eq_zero hnl, countIn_eq_zero hnr]
    · have hgt : strcmp w k < 0 := hbr k hm
      have hpos : strcmp k w > 0 := strcmp_pos_iff.mpr hgt
      have hnl : k ∉ keys l := not_mem_left_of_gt hbl hgt
      have hkw : w ≠ k := strcmp_ne_of_lt hgt
      obtain ⟨nd, hs, hw, hc⟩ := ihr hor hm
      refine ⟨nd, ?_, hw, ?_⟩
      · simp only [searchAux]
        rw [if_pos hpos]
        exact hs
      · have heq : countIn (Tree.node w c h l r) k = countIn r k := by
          simp [countIn, countIn_eq_zero hnl, hkw]
        rw [heq]
        exact hc

/-! ### Rotations and rebalance preserve BST order -/

theorem ordered_rotateLeft {t : Tree} (h : ordered t = true) :
    ordered (rotateLeft t) = true := by
  cases t with
  | nil => exact h
  | node w c hh l r =>
    cases r with
    | nil => exact h
    | node rw rc rh rl rr =>
      obtain ⟨hbl, hbr, hol, hor⟩ := ordered_node.mp h
      obtain ⟨hbrl, hbrr, horl, horr⟩ := ordered_node.mp hor
      have hwrw : strcmp w rw < 0 :=
        hbr rw (by rw [mem_keys_node]; right; left; rfl)
      simp only [rotateLeft]
      rw [ordered_node]
      refine ⟨?_, hbrr, ?_, horr⟩
      · intro x hx
        rw [mem_keys_node] at hx
        rcases hx with hx | hx | hx
        · exact strcmp_trans (hbl x hx) hwrw
        · subst hx; exact hwrw
        · exact hbrl x hx
      · rw [ordered_node]
        refine ⟨hbl, ?_, hol, horl⟩
        intro x hx
        exact hbr x (by rw [mem_keys_node]; left; exact hx)

theorem ordered_rotateRight {t : Tree} (h : ordered t = true) :
    ordered (rotateRight t) = true := by
  cases t with
  | nil => exact h
  | node w c hh l r =>
    cases l with
    | nil => exact h
    | node lw lc lh ll lr =>
      obtain ⟨hbl, hbr, hol, hor⟩ := ordered_node.mp h
      obtain ⟨hbll, hblr, holl, holr⟩ := ordered_node.mp hol
      have hlww : strcmp lw w < 0 :=
        hbl lw (by rw [mem_keys_node]; right; left; rfl)
      simp only [rotateRight]
      rw [ordered_node]
      refine ⟨hbll, ?_, holl, ?_⟩
      · intro x hx
        rw [mem_keys_node] at hx
        rcases hx with hx | hx | hx
        · exact hblr x hx
        · subst hx; exact hlww
        · exact strcmp_trans hlww (hbr x hx)
      · rw [ordered_node]
        refine ⟨?_, hbr, holr, hor⟩
        intro x hx
        exact hbl x (by rw [mem_keys_node]; right; right; exact hx)

theorem ordered_rebalance {t : Tree} (h : ordered t = true) :
    ordered (rebalance t) = true := by
  cases t with
  | nil => exact h
  | node w c hh l r =>
    simp only [rebalance]
    repeat' split
    · exact ordered_rotateRight h
    · exact ordered_rotateLeft h
    · apply ordered_rotateRight
      obtain ⟨hbl, hbr, hol, hor⟩ := ordered_node.mp h
      rw [ordered_node]
      refine ⟨?_, hbr, ordered_rotateLeft hol, hor⟩
      rw [keys_rotateLeft]
      exact hbl
    · apply ordered_rotateLeft
      obtain ⟨hbl, hbr, hol, hor⟩ := ordered_node.mp h
      rw [ordered_node]
      refine ⟨hbl, ?_, hol, ordered_rotateRight hor⟩
      rw [keys_rotateRight]
      exact hbr
    · exact h

/-! ### Insert lemmas -/

theorem insert_eq_insertAux (t : Tree) (k : String) :
    AVL.insert t k = insertAux t k := by
  cases t <;> rfl

theorem countIn_insertAux (t : Tree) (k' k : String) :
    countIn (insertAux t k') k = countIn t k + (if k = k' then 1 else 0) := by
  induction t with
  | nil =>
    simp only [insertAux, createNode, countIn]
    by_cases h : k = k'
    · subst h; simp
    · simp [h, Ne.symm h]
  | node w c hh l r ihl ihr =>
    rcases strcmp_cases k' w with hc | hc | hc
    · simp only [insertAux]
      rw [if_neg (by omega), if_pos (by omega), countIn_rebalance]
      simp only [countIn, ihl]
      ring
    · have he : k' = w := strcmp_eq_zero hc
      subst he
      simp only [insertAux]
      rw [if_neg (by omega), if_neg (by omega), countIn_rebalance]
      simp only [countIn]
      by_cases h : k = k'
      · subst h; simp; ring
      · simp [h, Ne.symm h]
    · simp only [insertAux]
      rw [if_pos (by omega), countIn_rebalance]
      simp only [countIn, ihr]
      ring

theorem mem_keys_insertAux {t : Tree} {k' x : String} :
    x ∈ keys (insertAux t k') ↔ x ∈ keys t ∨ x = k' := by
  induction t with
  | nil => simp [insertAux, createNode, keys]
  | node w c hh l r ihl ihr =>
    rcases strcmp_cases k' w with hc | hc | hc
    · simp only [insertAux]
      rw [if_neg (by omega), if_pos (by omega), keys_rebalance]
      rw [mem_keys_node, mem_keys_node, ihl]
      tauto
    · have he : k' = w := strcmp_eq_zero hc
      subst he
      simp only [insertAux]
      rw [if_neg (by omega), if_neg (by omega), keys_rebalance]
      rw [mem_keys_node, mem_keys_node]
      constructor
      · tauto
      · rintro ((h | h | h) | h) <;> tauto
    · simp only [insertAux]
      rw [if_pos (by omega), keys_rebalance]
      rw [mem_keys_node, mem_keys_node, ihr]
      tauto

theorem ordered_insertAux {t : Tree} {k' : String} (h : ordered t = true) :
    ordered (insertAux t k') = true := by
  induction t with
  | nil => simp [insertAux, createNode, ordered, keys]
  | node w c hh l r ihl ihr =>
    obtain ⟨hbl, hbr, hol, hor⟩ := ordered_node.mp h
    rcases strcmp_cases k' w with hc | hc | hc
    · simp only [insertAux]
      rw [if_neg (by omega), if_pos (by omega)]
      apply ordered_rebalance
      rw [ordered_node]
      refine ⟨?_, hbr, ihl hol, hor⟩
      intro x hx
      rcases mem_keys_insertAux.mp hx with hx | hx
      · exact hbl x hx
      · subst hx; omega
    · have he : k' = w := strcmp_eq_zero hc
      subst he
      simp only [insertAux]
      rw [if_neg (by omega), if_neg (by omega)]
      apply ordered_rebalance
      rw [ordered_node]
      exact ⟨hbl, hbr, hol, hor⟩
    · simp only [insertAux]
      rw [if_pos (by omega)]
      apply ordered_rebalance
      rw [ordered_node]
      refine ⟨hbl, ?_, hol, ihr hor⟩
      intro x hx
      rcases mem_keys_insertAux.mp hx with hx | hx
      · exact hbr x hx
      · rw [hx]
        have := strcmp_swap k' w
        omega

theorem occs_of_ordered {t : Tree} {k : String} (h : ordered t = true) :
    occs t k = if k ∈ keys t then 1 else 0 := by
  induction t with
  | nil => simp [occs, keys]
  | node w c hh l r ihl ihr =>
    obtain ⟨hbl, hbr, hol, hor⟩ := ordered_node.mp h
    by_cases hw : w = k
    · subst hw
      have hnl := not_mem_self_left hbl
      have hnr := not_mem_self_right hbr
      simp [occs, occs_eq_zero hnl, occs_eq_zero hnr, mem_keys_node]
    · have hkw : ¬ k = w := fun hh => hw hh.symm
      by_cases hml : k ∈ keys l
      · have hnr : k ∉ keys r := by
          intro hmr
          exact strcmp_asymm (hbr k hmr) (hbl k hml)
        simp [occs, hw, ihl hol, hml, occs_eq_zero hnr, mem_keys_node]
      · by_cases hmr : k ∈ keys r
        · simp [occs, hw, occs_eq_zero hml, ihr hor, hmr, mem_keys_node]
        · simp [occs, hw, occs_eq_zero hml, occs_eq_zero hmr, mem_keys_node,
            hkw, hml, hmr]

theorem insertTimes_facts {t : Tree} {k : String} (ho : ordered t = true) :
    ∀ n : Nat, ordered (insertTimes t k n) = true ∧
      countIn (insertTimes t k n) k = countIn t k + n ∧
      (1 ≤ n → k ∈ keys (insertTimes t k n)) := by
  intro n
  induction n with
  | zero =>
    refine ⟨ho, by simp [insertTimes], ?_⟩
    intro hn
    omega
  | succ n ih =>
    obtain ⟨iho, ihc, ihm⟩ := ih
    refine ⟨?_, ?_, ?_⟩
    · rw [insertTimes, insert_eq_insertAux]
      exact ordered_insertAux iho
    · rw [insertTimes, insert_eq_insertAux, countIn_insertAux, ihc]
      simp
      ring
    · intro _
      rw [insertTimes, insert_eq_insertAux]
      exact mem_keys_insertAux.mpr (Or.inr rfl)

/-! ### Branch-evaluation lemmas for `deleteAux` -/

theorem deleteFromTree_eq_deleteAux (t : Tree) (k : String) (s : List Bool) :
    deleteFromTree t k s = deleteAux t k false s := by
  cases t <;> rfl

theorem deleteAux_gt {word w : String} {c h : Int} {l r : Tree} {f : Bool}
    {s : List Bool} (hc : strcmp word w > 0) :
    deleteAux (.node w c h l r) word f s =
      (rebalance (.node w c (max (height l) (height (deleteAux r word f s).1) + 1)
        l (deleteAux r word f s).1), (deleteAux r word f s).2) := by
  cases l <;> cases r <;> (simp only [deleteAux]; rw [if_pos hc])

theorem deleteAux_lt {word w : String} {c h : Int} {l r : Tree} {f : Bool}
    {s : List Bool} (hc : strcmp word w < 0) :
    deleteAux (.node w c h l r) word f s =
      (rebalance (.node w c (max (height (deleteAux l word f s).1) (height r) + 1)
        (deleteAux l word f s).1 r), (deleteAux l word f s).2) := by
  cases l <;> cases r <;> (simp only [deleteAux]; rw [if_neg (by omega), if_pos hc])

theorem deleteAux_found_dec {word w : String} {c h : Int} {l r : Tree} {f : Bool}
    {s : List Bool} (hc : strcmp word w = 0) (hcnt : ¬(c = 1 ∨ f = true)) :
    deleteAux (.node w c h l r) word f s = (.node w (c - 1) h l r, s, false) := by
  cases l <;> cases r <;>
    (simp only [deleteAux]; rw [if_neg (by omega), if_neg (by omega), if_neg hcnt])

theorem deleteAux_found_leaf {word w : String} {c h : Int} {f : Bool}
    {s : List Bool} (hc : strcmp word w = 0) (hdel : c = 1 ∨ f = true) :
    deleteAux (.node w c h .nil .nil) word f s = (.nil, s, false) := by
  simp only [deleteAux]
  rw [if_neg (by omega), if_neg (by omega), if_pos hdel]

theorem deleteAux_found_left {word w lw : String} {c h lc lh : Int}
    {ll lr : Tree} {f : Bool} {s : List Bool}
    (hc : strcmp word w = 0) (hdel : c = 1 ∨ f = true) :
    deleteAux (.node w c h (.node lw lc lh ll lr) .nil) word f s =
      (.node lw lc lh ll lr, s, false) := by
  simp only [deleteAux]
  rw [if_neg (by omega), if_neg (by omega), if_pos hdel]

theorem deleteAux_found_right {word w rw : String} {c h rc rh : Int}
    {rl rr : Tree} {f : Bool} {s : List Bool}
    (hc : strcmp word w = 0) (hdel : c = 1 ∨ f = true) :
    deleteAux (.node w c h .nil (.node rw rc rh rl rr)) word f s =
      (.node rw rc rh rl rr, s, false) := by
  simp only [deleteAux]
  rw [if_neg (by omega), if_neg (by omega), if_pos hdel]

theorem deleteAux_found_two_right {word w lw rw : String}
    {c h lc lh rc rh : Int} {ll lr rl rr : Tree} {f : Bool} {s : List Bool}
    (hc : strcmp word w = 0) (hdel : c = 1 ∨ f = true)
    (hs : s.headD true = true) :
    deleteAux (.node w c h (.node lw lc lh ll lr) (.node rw rc rh rl rr)) word f s =
      (rebalance (.node (wordOf (smallestIn (.node rw rc rh rl rr)))
        (countOf (smallestIn (.node rw rc rh rl rr)))
        (max (height (Tree.node lw lc lh ll lr))
          (height (deleteAux (.node rw rc rh rl rr)
            (wordOf (smallestIn (.node rw rc rh rl rr))) true s.tail).1) + 1)
        (.node lw lc lh ll lr)
        (deleteAux (.node rw rc rh rl rr)
          (wordOf (smallestIn (.node rw rc rh rl rr))) true s.tail).1),
       (deleteAux (.node rw rc rh rl rr)
         (wordOf (smallestIn (.node rw rc rh rl rr))) true s.tail).2) := by
  simp only [deleteAux]
  rw [if_neg (by omega), if_neg (by omega), if_pos hdel, if_pos hs]

theorem deleteAux_found_two_left {word w lw rw : String}
    {c h lc lh rc rh : Int} {ll lr rl rr : Tree} {f : Bool} {s : List Bool}
    (hc : strcmp word w = 0) (hdel : c = 1 ∨ f = true)
    (hs : s.headD true = false) :
    deleteAux (.node w c h (.node lw lc lh ll lr) (.node rw rc rh rl rr)) word f s =
      (rebalance (.node (wordOf (largestIn (.node rw rc rh rl rr)))
        (countOf (largestIn (.node rw rc rh rl rr)))
        (max (height (deleteAux (.node lw lc lh ll lr)
            (wordOf (largestIn (.node rw rc rh rl rr))) true s.tail).1)
          (height (Tree.node rw rc rh rl rr)) + 1)
        (deleteAux (.node lw lc lh ll lr)
          (wordOf (largestIn (.node rw rc rh rl rr))) true s.tail).1
        (.node rw rc rh rl rr)),
       (deleteAux (.node lw lc lh ll lr)
         (wordOf (largestIn (.node rw rc rh rl rr))) true s.tail).2) := by
  have hs2 : ¬ (s.headD true = true) := by rw [hs]; simp
  simp only [deleteAux]
  rw [if_neg (by omega), if_neg (by omega), if_pos hdel, if_neg hs2]

/-! ### The keys of a deletion result are keys of the input -/

theorem mem_keys_deleteAux :
    ∀ (t : Tree) {x word : String} (f : Bool) (s : List Bool),
      x ∈ keys (deleteAux t word f s).1 → x ∈ keys t := by
  intro t
  induction t with
  | nil => intro x word f s hx; exact hx
  | node w c h l r ihl ihr =>
    intro x word f s hx
    rcases strcmp_cases word w with hc | hc | hc
    · rw [deleteAux_lt (by omega)] at hx
      simp only at hx
      rw [keys_rebalance, mem_keys_node] at hx
      rw [mem_keys_node]
      rcases hx with hx | hx | hx
      · exact Or.inl (ihl _ _ hx)
      · exact Or.inr (Or.inl hx)
      · exact Or.inr (Or.inr hx)
    · by_cases hdel : c = 1 ∨ f = true
      · cases l with
        | nil =>
          cases r with
          | nil =>
            rw [deleteAux_found_leaf hc hdel] at hx
            simp [keys] at hx
          | node rw' rc' rh' rl' rr' =>
            rw [deleteAux_found_right hc hdel] at hx
            rw [mem_keys_node]
            exact Or.inr (Or.inr hx)
        | node lw lc lh ll lr =>
          cases r with
          | nil =>
            rw [deleteAux_found_left hc hdel] at hx
            rw [mem_keys_node]
            exact Or.inl hx
          | node rw' rc' rh' rl' rr' =>
            rcases Bool.eq_false_or_eq_true (s.headD true) with hs | hs
            · rw [deleteAux_found_two_right hc hdel hs] at hx
              simp only at hx
              rw [keys_rebalance, mem_keys_node] at hx
              rw [mem_keys_node]
              rcases hx with hx | hx | hx
              · exact Or.inl hx
              · subst hx
                exact Or.inr (Or.inr (smallestIn_word_mem (by simp)))
              · exact Or.inr (Or.inr (ihr _ _ hx))
            · rw [deleteAux_found_two_left hc hdel hs] at hx
              simp only at hx
              rw [keys_rebalance, mem_keys_node] at hx
              rw [mem_keys_node]
              rcases hx with hx | hx | hx
              · exact Or.inl (ihl _ _ hx)
              · subst hx
                exact Or.inr (Or.inr (largestIn_word_mem (by simp)))
              · exact Or.inr (Or.inr hx)
      · rw [deleteAux_found_dec hc hdel] at hx
        simp only at hx
        rw [mem_keys_node] at hx
        rw [mem_keys_node]
        exact hx
    · rw [deleteAux_gt (by omega)] at hx
      simp only at hx
      rw [keys_rebalance, mem_keys_node] at hx
      rw [mem_keys_node]
      rcases hx with hx | hx | hx
      · exact Or.inl hx
      · exact Or.inr (Or.inl hx)
      · exact Or.inr (Or.inr (ihr _ _ hx))

/-! ### Facts about `decCount` (the spec's reference for the decrement case) -/

theorem height_decCount (t : Tree) (k : String) :
    height (decCount t k) = height t := by
  cases t with
  | nil => rfl
  | node w c h l r =>
    simp only [decCount]
    repeat' split
    all_goals rfl

theorem keys_decCount (t : Tree) (k : String) : keys (decCount t k) = keys t := by
  induction t with
  | nil => rfl
  | node w c h l r ihl ihr =>
    simp only [decCount]
    repeat' split
    all_goals simp [keys, ihl, ihr]

theorem ordered_decCount {t : Tree} {k : String} (h : ordered t = true) :
    ordered (decCount t k) = true := by
  induction t with
  | nil => exact h
  | node w c hh l r ihl ihr =>
    obtain ⟨hbl, hbr, hol, hor⟩ := ordered_node.mp h
    simp only [decCount]
    repeat' split
    · rw [ordered_node]
      refine ⟨hbl, ?_, hol, ihr hor⟩
      rw [keys_decCount]
      exact hbr
    · rw [ordered_node]
      refine ⟨?_, hbr, ihl hol, hor⟩
      rw [keys_decCount]
      exact hbl
    · rw [ordered_node]
      exact ⟨hbl, hbr, hol, hor⟩

theorem countIn_decCount {t : Tree} {k : String} (ho : ordered t = true)
    (hm : k ∈ keys t) : countIn (decCount t k) k = countIn t k - 1 := by
  induction t with
  | nil => simp [keys] at hm
  | node w c hh l r ihl ihr =>
    obtain ⟨hbl, hbr, hol, hor⟩ := ordered_node.mp ho
    rw [mem_keys_node] at hm
    rcases hm with hm | hm | hm
    · have hlt : strcmp k w < 0 := hbl k hm
      have hnr := not_mem_right_of_lt hbr hlt
      have hkw : k ≠ w := strcmp_ne_of_lt hlt
      simp only [decCount]
      rw [if_neg (by omega), if_pos hlt]
      simp only [countIn]
      rw [countIn_eq_zero hnr, ihl hol hm]
      omega
    · subst hm
      have h0 : strcmp k k = 0 := strcmp_self k
      have hnl : k ∉ keys l := not_mem_self_left hbl
      have hnr : k ∉ keys r := not_mem_self_right hbr
      simp only [decCount]
      rw [if_neg (by omega), if_neg (by omega)]
      simp only [countIn]
      rw [countIn_eq_zero hnl, countIn_eq_zero hnr]
      simp
    · have hgt : strcmp w k < 0 := hbr k hm
      have hpos : strcmp k w > 0 := strcmp_pos_iff.mpr hgt
      have hnl := not_mem_left_of_gt hbl hgt
      have hkw : w ≠ k := strcmp_ne_of_lt hgt
      simp only [decCount]
      rw [if_pos hpos]
      simp only [countIn]
      rw [countIn_eq_zero hnl, ihr hor hm]
      omega

/-! ### Deleting an absent key is the identity on an AVL tree -/

theorem deleteAux_not_found {t : Tree} {k : String} {f : Bool} :
    ∀ {s : List Bool}, ordered t = true → heightsOk t = true →
      avlBalanced t = true → k ∉ keys t →
      deleteAux t k f s = (t, s, true) := by
  induction t with
  | nil => intro s _ _ _ _; rfl
  | node w c h l r ihl ihr =>
    intro s ho hh hb hm
    obtain ⟨hbl, hbr, hol, hor⟩ := ordered_node.mp ho
    obtain ⟨hhh, hhl, hhr⟩ := heightsOk_node.mp hh
    obtain ⟨hba, hbb, hbal, hbar⟩ := avlBalanced_node.mp hb
    have hHl : height l = realHeight l := height_eq_realHeight hhl
    have hHr : height r = realHeight r := height_eq_realHeight hhr
    rw [mem_keys_node] at hm
    push_neg at hm
    rcases strcmp_cases k w with hc | hc | hc
    · rw [deleteAux_lt (by omega), ihl hol hhl hbal hm.1]
      simp only
      have hmax : max (height l) (height r) + 1 = h := by
        rw [hHl, hHr, hhh]
      have hbal1 : -1 ≤ height l - height r := by rw [hHl, hHr]; omega
      have hbal2 : height l - height r ≤ 1 := by rw [hHl, hHr]; omega
      rw [hmax, rebalance_id hbal1 hbal2]
    · exact absurd (strcmp_eq_zero hc) hm.2.1
    · rw [deleteAux_gt (by omega), ihr hor hhr hbar hm.2.2]
      simp only
      have hmax : max (height l) (height r) + 1 = h := by
        rw [hHl, hHr, hhh]
      have hbal1 : -1 ≤ height l - height r := by rw [hHl, hHr]; omega
      have hbal2 : height l - height r ≤ 1 := by rw [hHl, hHr]; omega
      rw [hmax, rebalance_id hbal1 hbal2]

/-! ### Deleting a key whose count exceeds 1 only decrements that count -/

theorem deleteAux_found_decrement {t : Tree} {k : String} :
    ∀ {s : List Bool}, ordered t = true → heightsOk t = true →
      avlBalanced t = true → countIn t k > 1 →
      deleteAux t k false s = (decCount t k, s, false) := by
  induction t with
  | nil => intro s _ _ _ hcnt; simp [countIn] at hcnt
  | node w c h l r ihl ihr =>
    intro s ho hh hb hcnt
    obtain ⟨hbl, hbr, hol, hor⟩ := ordered_node.mp ho
    obtain ⟨hhh, hhl, hhr⟩ := heightsOk_node.mp hh
    obtain ⟨hba, hbb, hbal, hbar⟩ := avlBalanced_node.mp hb
    have hHl : height l = realHeight l := height_eq_realHeight hhl
    have hHr : height r = realHeight r := height_eq_realHeight hhr
    rcases strcmp_cases k w with hc | hc | hc
    · have hlt : strcmp k w < 0 := by omega
      have hkw : k ≠ w := strcmp_ne_of_lt hlt
      have hnr : k ∉ keys r := not_mem_right_of_lt hbr hlt
      have hcl : countIn l k > 1 := by
        have e1 : countIn r k = 0 := countIn_eq_zero hnr
        have e2 : countIn (Tree.node w c h l r) k =
            countIn l k := by
          simp [countIn, Ne.symm hkw, e1]
        omega
      rw [deleteAux_lt hlt, ihl hol hhl hbal hcl]
      simp only
      have hdh : height (decCount l k) = height l := height_decCount l k
      have hmax : max (height (decCount l k)) (height r) + 1 = h := by
        rw [hdh, hHl, hHr, hhh]
      have hbal1 : -1 ≤ height (decCount l k) - height r := by
        rw [hdh, hHl, hHr]; omega
      have hbal2 : height (decCount l k) - height r ≤ 1 := by
        rw [hdh, hHl, hHr]; omega
      rw [hmax, rebalance_id hbal1 hbal2]
      have hd : decCount (Tree.node w c h l r) k =
          Tree.node w c h (decCount l k) r := by
        simp only [decCount]
        rw [if_neg (by omega), if_pos hlt]
      rw [hd]
    · have he : k = w := strcmp_eq_zero hc
      subst he
      have hnl : k ∉ keys l := not_mem_self_left hbl
      have hnr : k ∉ keys r := not_mem_self_right hbr
      have hce : countIn (Tree.node k c h l r) k = c := by
        simp [countIn, countIn_eq_zero hnl, countIn_eq_zero hnr]
      have hcgt : c > 1 := by omega
      have hc1 : ¬(c = 1 ∨ (false : Bool) = true) := by
        simp only [Bool.false_eq_true, or_false]
        omega
      rw [deleteAux_found_dec hc hc1]
      have hd : decCount (Tree.node k c h l r) k = Tree.node k (c - 1) h l r := by
        simp only [decCount]
        rw [if_neg (by omega), if_neg (by omega)]
      rw [hd]
    · have hgt : strcmp k w > 0 := by omega
      have hwk : strcmp w k < 0 := strcmp_pos_iff.mp hgt
      have hkw : w ≠ k := strcmp_ne_of_lt hwk
      have hnl : k ∉ keys l := not_mem_left_of_gt hbl hwk
      have hcr : countIn r k > 1 := by
        have e1 : countIn l k = 0 := countIn_eq_zero hnl
        have e2 : countIn (Tree.node w c h l r) k =
            countIn r k := by
          simp [countIn, hkw, e1]
        omega
      rw [deleteAux_gt hgt, ihr hor hhr hbar hcr]
      simp only
      have hdh : height (decCount r k) = height r := height_decCount r k
      have hmax : max (height l) (height (decCount r k)) + 1 = h := by
        rw [hdh, hHl, hHr, hhh]
      have hbal1 : -1 ≤ height l - height (decCount r k) := by
        rw [hdh, hHl, hHr]; omega
      have hbal2 : height l - height (decCount r k) ≤ 1 := by
        rw [hdh, hHl, hHr]; omega
      rw [hmax, rebalance_id hbal1 hbal2]
      have hd : decCount (Tree.node w c h l r) k =
          Tree.node w c h l (decCount r k) := by
        simp only [decCount]
        rw [if_pos hgt]
      rw [hd]

/-! ### Deleting a key with count 1 removes the key -/

theorem deleteAux_removes {t : Tree} {k : String} :
    ∀ {s : List Bool}, ordered t = true → countIn t k = 1 →
      k ∉ keys (deleteAux t k false s).1 := by
  induction t with
  | nil => intro s _ hcnt; simp [countIn] at hcnt
  | node w c h l r ihl ihr =>
    intro s ho hcnt
    obtain ⟨hbl, hbr, hol, hor⟩ := ordered_node.mp ho
    rcases strcmp_cases k w with hc | hc | hc
    · have hlt : strcmp k w < 0 := by omega
      have hkw : k ≠ w := strcmp_ne_of_lt hlt
      have hnr : k ∉ keys r := not_mem_right_of_lt hbr hlt
      have hcl : countIn l k = 1 := by
        have e1 : countIn r k = 0 := countIn_eq_zero hnr
        have e2 : countIn (Tree.node w c h l r) k = countIn l k := by
          simp [countIn, Ne.symm hkw, e1]
        omega
      rw [deleteAux_lt hlt]
      simp only
      rw [keys_rebalance, mem_keys_node]
      push_neg
      exact ⟨ihl hol hcl, hkw, hnr⟩
    · have he : k = w := strcmp_eq_zero hc
      subst he
      have hnl : k ∉ keys l := not_mem_self_left hbl
      have hnr : k ∉ keys r := not_mem_self_right hbr
      have hce : c = 1 := by
        have e2 : countIn (Tree.node k c h l r) k = c := by
          simp [countIn, countIn_eq_zero hnl, countIn_eq_zero hnr]
        omega
      have hdel : c = 1 ∨ (false : Bool) = true := Or.inl hce
      cases l with
      | nil =>
        cases r with
        | nil =>
          rw [deleteAux_found_leaf hc hdel]
          simp [keys]
        | node rw' rc' rh' rl' rr' =>
          rw [deleteAux_found_right hc hdel]
          exact hnr
      | node lw lc lh ll lr =>
        cases r with
        | nil =>
          rw [deleteAux_found_left hc hdel]
          exact hnl
        | node rw' rc' rh' rl' rr' =>
          rcases Bool.eq_false_or_eq_true (s.headD true) with hs | hs
          · rw [deleteAux_found_two_right hc hdel hs]
            simp only
            rw [keys_rebalance, mem_keys_node]
            push_neg
            refine ⟨hnl, ?_, ?_⟩
            · have hmem := smallestIn_word_mem
                (t := Tree.node rw' rc' rh' rl' rr') (by simp)
              intro he2
              rw [← he2] at hmem
              exact hnr hmem
            · intro hmem2
              exact hnr (mem_keys_deleteAux _ _ _ hmem2)
          · rw [deleteAux_found_two_left hc hdel hs]
            simp only
            rw [keys_rebalance, mem_keys_node]
            push_neg
            refine ⟨?_, ?_, hnr⟩
            · intro hmem2
              exact hnl (mem_keys_deleteAux _ _ _ hmem2)
            · have hmem := largestIn_word_mem
                (t := Tree.node rw' rc' rh' rl' rr') (by simp)
              intro he2
              rw [← he2] at hmem
              exact hnr hmem
    · have hgt : strcmp k w > 0 := by omega
      have hwk : strcmp w k < 0 := strcmp_pos_iff.mp hgt
      have hkw : k ≠ w := fun hh => strcmp_ne_of_lt hwk hh.symm
      have hwk2 : w ≠ k := fun hh => hkw hh.symm
      have hnl : k ∉ keys l := not_mem_left_of_gt hbl hwk
      have hcr : countIn r k = 1 := by
        have e1 : countIn l k = 0 := countIn_eq_zero hnl
        have e2 : countIn (Tree.node w c h l r) k = countIn r k := by
          simp [countIn, hwk2, e1]
        omega
      rw [deleteAux_gt hgt]
      simp only
      rw [keys_rebalance, mem_keys_node]
      push_neg
      exact ⟨hnl, hkw, ihr hor hcr⟩

/-! ### The rotation-counting instrumentation computes the same trees -/

theorem rebalanceC_fst (t : Tree) : (rebalanceC t).1 = rebalance t := by
  cases t with
  | nil => rfl
  | node w c h l r =>
    simp only [rebalanceC, rebalance]
    split_ifs <;> rfl

theorem insertAuxC_fst (t : Tree) (k : String) :
    (insertAuxC t k).1 = insertAux t k := by
  induction t with
  | nil => rfl
  | node w c h l r ihl ihr =>
    simp only [insertAuxC, insertAux]
    split_ifs
    · simp [ihr, rebalanceC_fst]
    · simp [ihl, rebalanceC_fst]
    · simp [rebalanceC_fst]

theorem insertC_fst (t : Tree) (k : String) :
    (insertC t k).1 = AVL.insert t k := by
  cases t with
  | nil => rfl
  | node w c h l r => exact insertAuxC_fst _ _

/-! ### Claim theorems -/

/-- C1: the claim states that for either random promotion branch, the
replacement key of a two-child deletion keeps the BST invariant, and that
deleting "d" from the tree built from d,b,f,a,c,e,g yields the in-order
sequence a,b,c,e,f,g.  The code violates this in the `rand` even ("promote
from the left") branch: it promotes `largestIn(root->right)` (here "g",
which is not between the subtree ranges) and force-deletes that word from
the LEFT subtree, where it does not occur; the resulting in-order sequence
is a,b,c,g,e,f,g.  The odd ("promote from the right") branch behaves as the
claim states. -/
theorem claim1_two_child_promotion_eval :
    keys (deleteFromTree (insertList .nil ["d", "b", "f", "a", "c", "e", "g"])
        "d" [true]).1 = ["a", "b", "c", "e", "f", "g"] ∧
    keys (deleteFromTree (insertList .nil ["d", "b", "f", "a", "c", "e", "g"])
        "d" [false]).1 = ["a", "b", "c", "g", "e", "f", "g"] := by
  decide

/-- C2 counterexample: a node with balance factor 2 whose left child has
balance factor 0 and whose height fields are correct.  The claim (the
spec's table row "> 1, ≥ 0: rotate right") requires a right rotation here,
but `rebalance` in avl.c tests `getBalance(root->left) > 0` strictly and
returns the node unchanged. -/
theorem claim2_counterexample :
    getBalance (Tree.node "d" 1 3
      (Tree.node "b" 1 2 (Tree.node "a" 1 1 .nil .nil)
        (Tree.node "c" 1 1 .nil .nil)) .nil) = 2 ∧
    getBalance (leftOf (Tree.node "d" 1 3
      (Tree.node "b" 1 2 (Tree.node "a" 1 1 .nil .nil)
        (Tree.node "c" 1 1 .nil .nil)) .nil)) = 0 ∧
    heightsOk (Tree.node "d" 1 3
      (Tree.node "b" 1 2 (Tree.node "a" 1 1 .nil .nil)
        (Tree.node "c" 1 1 .nil .nil)) .nil) = true ∧
    rebalance (Tree.node "d" 1 3
      (Tree.node "b" 1 2 (Tree.node "a" 1 1 .nil .nil)
        (Tree.node "c" 1 1 .nil .nil)) .nil) =
      Tree.node "d" 1 3
        (Tree.node "b" 1 2 (Tree.node "a" 1 1 .nil .nil)
          (Tree.node "c" 1 1 .nil .nil)) .nil ∧
    rebalance (Tree.node "d" 1 3
      (Tree.node "b" 1 2 (Tree.node "a" 1 1 .nil .nil)
        (Tree.node "c" 1 1 .nil .nil)) .nil) ≠
      rotateRight (Tree.node "d" 1 3
        (Tree.node "b" 1 2 (Tree.node "a" 1 1 .nil .nil)
          (Tree.node "c" 1 1 .nil .nil)) .nil) := by
  decide

/-- C2 amended: `rebalance` applies the four-case table with STRICT
comparisons on the child's balance factor: Left-Left fires only when the
left child's balance factor is > 0, Right-Right only when the right
child's is < 0; in the boundary cases (balance factor beyond ±1 with a
child balance factor of exactly 0), and whenever the balance factor is in
[-1, 1], the node is returned unchanged. -/
theorem claim2_rebalance_case_table (t : Tree) :
    (getBalance t > 1 ∧ getBalance (leftOf t) > 0 →
      rebalance t = rotateRight t) ∧
    (getBalance t < -1 ∧ getBalance (rightOf t) < 0 →
      rebalance t = rotateLeft t) ∧
    (getBalance t > 1 ∧ getBalance (leftOf t) < 0 →
      rebalance t = rotateRight (setLeft t (rotateLeft (leftOf t)))) ∧
    (getBalance t < -1 ∧ getBalance (rightOf t) > 0 →
      rebalance t = rotateLeft (setRight t (rotateRight (rightOf t)))) ∧
    ((-1 ≤ getBalance t ∧ getBalance t ≤ 1) ∨
      (getBalance t > 1 ∧ getBalance (leftOf t) = 0) ∨
      (getBalance t < -1 ∧ getBalance (rightOf t) = 0) →
      rebalance t = t) := by
  cases t with
  | nil =>
    refine ⟨?_, ?_, ?_, ?_, ?_⟩ <;> intro hx
    · simp [getBalance] at hx
    · simp [getBalance] at hx
    · simp [getBalance] at hx
    · simp [getBalance] at hx
    · rfl
  | node w c h l r =>
    simp only [leftOf, rightOf]
    refine ⟨?_, ?_, ?_, ?_, ?_⟩ <;> intro hx
    · simp only [rebalance]
      rw [if_pos hx]
    · obtain ⟨h1, h2⟩ := hx
      simp only [rebalance]
      rw [if_neg (by omega), if_pos ⟨h1, h2⟩]
    · obtain ⟨h1, h2⟩ := hx
      simp only [rebalance]
      rw [if_neg (by omega), if_neg (by omega), if_pos ⟨h1, h2⟩]
      simp [setLeft]
    · obtain ⟨h1, h2⟩ := hx
      simp only [rebalance]
      rw [if_neg (by omega), if_neg (by omega), if_neg (by omega),
        if_pos ⟨h1, h2⟩]
      simp [setRight]
    · simp only [rebalance]
      rcases hx with ⟨h1, h2⟩ | ⟨h1, h2⟩ | ⟨h1, h2⟩ <;>
        rw [if_neg (by omega), if_neg (by omega), if_neg (by omega),
          if_neg (by omega)]

/-- C2 witness: the amended table applied to a concrete Left-Left tree
(balance factor 2, left child's balance factor 1) performs the single
right rotation. -/
theorem claim2_witness :
    rebalance (Tree.node "c" 1 3
      (Tree.node "b" 1 2 (Tree.node "a" 1 1 .nil .nil) .nil) .nil) =
      rotateRight (Tree.node "c" 1 3
        (Tree.node "b" 1 2 (Tree.node "a" 1 1 .nil .nil) .nil) .nil) :=
  (claim2_rebalance_case_table _).1 ⟨by decide, by decide⟩

/-- C3: the claim states that after every insert/delete the tree is
height-correct and AVL-balanced.  The code violates it: inserting
d,b,e,a,c and deleting "e" leaves the root with balance factor 2 (the
boundary rebalance case the code misses), with correct heights and intact
BST order, so the AVL balance invariant fails on a reachable tree. -/
theorem claim3_balance_invariant_violated :
    avlBalanced (deleteFromTree (insertList .nil ["d", "b", "e", "a", "c"])
        "e" []).1 = false ∧
    heightsOk (deleteFromTree (insertList .nil ["d", "b", "e", "a", "c"])
        "e" []).1 = true ∧
    ordered (deleteFromTree (insertList .nil ["d", "b", "e", "a", "c"])
        "e" []).1 = true ∧
    getBalance (deleteFromTree (insertList .nil ["d", "b", "e", "a", "c"])
        "e" []).1 = 2 := by
  decide

/-- C4: the claim states the BST order invariant (strictly ascending
in-order traversal, no duplicate keys) for every operation sequence.  The
code violates it: building from d,b,f,a,c,e,g and deleting "d" with an
even `rand()` draw leaves the in-order sequence a,b,c,g,e,f,g - not
ascending, with the key "g" held by two nodes. -/
theorem claim4_bst_invariant_violated :
    ordered (deleteFromTree (insertList .nil ["d", "b", "f", "a", "c", "e", "g"])
        "d" [false]).1 = false ∧
    occs (deleteFromTree (insertList .nil ["d", "b", "f", "a", "c", "e", "g"])
        "d" [false]).1 "g" = 2 := by
  decide

/-- C5: the delete contract on a well-formed tree (BST-ordered, correct
heights, AVL-balanced): a key present with count > 1 only has its count
decremented (no structural change, no random draw, no not-found report); a
key present with count 1 is removed from the structure; an absent key
leaves the tree unchanged and reports not-found (the Bool component models
the code's "not found" printf). -/
theorem claim5_delete_contract (t : Tree) (k : String) (s : List Bool)
    (ho : ordered t = true) (hh : heightsOk t = true)
    (hb : avlBalanced t = true) :
    (countIn t k > 1 → deleteFromTree t k s = (decCount t k, s, false)) ∧
    (countIn t k = 1 → k ∉ keys (deleteFromTree t k s).1) ∧
    (k ∉ keys t → deleteFromTree t k s = (t, s, true)) := by
  refine ⟨?_, ?_, ?_⟩
  · intro hcnt
    rw [deleteFromTree_eq_deleteAux]
    exact deleteAux_found_decrement ho hh hb hcnt
  · intro hcnt
    rw [deleteFromTree_eq_deleteAux]
    exact deleteAux_removes ho hcnt
  · intro hm
    rw [deleteFromTree_eq_deleteAux]
    exact deleteAux_not_found ho hh hb hm

/-- C5 witness: deleting "x" from the empty tree reports not-found and
leaves the tree empty (the claim's concrete scenario). -/
theorem claim5_witness :
    deleteFromTree .nil "x" [] = (.nil, [], true) :=
  (claim5_delete_contract .nil "x" [] (by decide) (by decide) (by decide)).2.2
    (by decide)

/-- C6: delete is a partial inverse of insert on a well-formed tree: if a
key is present with count 1, one delete makes `search` report not-found;
if present with count c > 1, after one delete `search` finds a node whose
count is c - 1. -/
theorem claim6_delete_search_inverse (t : Tree) (k : String) (s : List Bool)
    (ho : ordered t = true) (hh : heightsOk t = true)
    (hb : avlBalanced t = true) :
    (countIn t k = 1 → search (deleteFromTree t k s).1 k = none) ∧
    (countIn t k > 1 → ∃ nd, search (deleteFromTree t k s).1 k = some nd ∧
      wordOf nd = k ∧ countOf nd = countIn t k - 1) := by
  constructor
  · intro hcnt
    rw [search_eq_searchAux, deleteFromTree_eq_deleteAux]
    exact searchAux_not_mem (deleteAux_removes ho hcnt)
  · intro hcnt
    rw [search_eq_searchAux, deleteFromTree_eq_deleteAux,
      deleteAux_found_decrement ho hh hb hcnt]
    simp only
    have hm : k ∈ keys t := by
      by_contra hm
      rw [countIn_eq_zero hm] at hcnt
      omega
    have ho' : ordered (decCount t k) = true := ordered_decCount ho
    have hm' : k ∈ keys (decCount t k) := by
      rw [keys_decCount]
      exact hm
    obtain ⟨nd, hs', hw', hc'⟩ := searchAux_found ho' hm'
    exact ⟨nd, hs', hw', by rw [hc', countIn_decCount ho hm]⟩

/-- C6 witness: insert "a" twice, delete it once; search finds it with
count 1. -/
theorem claim6_witness :
    ∃ nd, search (deleteFromTree (insertTimes .nil "a" 2) "a" []).1 "a" =
      some nd ∧ wordOf nd = "a" ∧ countOf nd = 1 := by
  obtain ⟨nd, h1, h2, h3⟩ :=
    (claim6_delete_search_inverse (insertTimes .nil "a" 2) "a" []
      (by decide) (by decide) (by decide)).2 (by decide)
  exact ⟨nd, h1, h2, by rw [h3]; decide⟩

/-- C7: inserting the same key n ≥ 1 times into a BST-ordered tree that
does not contain it yields exactly one node holding that key, whose count
is n. -/
theorem claim7_count_correctness (t : Tree) (k : String) (n : Nat)
    (ho : ordered t = true) (hk : k ∉ keys t) (hn : 1 ≤ n) :
    occs (insertTimes t k n) k = 1 ∧
      countIn (insertTimes t k n) k = (n : Int) := by
  obtain ⟨ho', hc', hm'⟩ := insertTimes_facts (k := k) ho n
  constructor
  · rw [occs_of_ordered ho', if_pos (hm' hn)]
  · rw [hc', countIn_eq_zero hk]
    ring

/-- C7 witness: the claim's concrete scenario - insert "word" three times
into the empty tree: one node holds it and search reports count 3. -/
theorem claim7_witness :
    (occs (insertTimes .nil "word" 3) "word" = 1 ∧
      countIn (insertTimes .nil "word" 3) "word" = 3) ∧
    (search (insertTimes .nil "word" 3) "word").map countOf = some 3 :=
  ⟨claim7_count_correctness .nil "word" 3 (by decide) (by decide) (by decide),
    by decide⟩

/-- C8: on a BST-ordered tree, `search` returns a node holding exactly the
searched key (with that key's recorded count) when the key is present, and
NULL (`none`) when absent.  The embedding of `search` is a pure function
of the tree - it produces no modified tree at all, so the no-mutation part
of the contract holds by construction. -/
theorem claim8_search_contract (t : Tree) (k : String)
    (ho : ordered t = true) :
    (k ∈ keys t → ∃ nd, search t k = some nd ∧ wordOf nd = k ∧
      countOf nd = countIn t k) ∧
    (k ∉ keys t → search t k = none) := by
  constructor
  · intro hm
    rw [search_eq_searchAux]
    exact searchAux_found ho hm
  · intro hm
    rw [search_eq_searchAux]
    exact searchAux_not_mem hm

/-- C8 witness: in the tree built from b,a the key "a" is found (as a node
holding "a" with count 1) and the key "x" is reported not-found. -/
theorem claim8_witness :
    (∃ nd, search (insertList .nil ["b", "a"]) "a" = some nd ∧
      wordOf nd = "a" ∧ countOf nd = 1) ∧
    search (insertList .nil ["b", "a"]) "x" = none := by
  constructor
  · obtain ⟨nd, h1, h2, h3⟩ :=
      (claim8_search_contract (insertList .nil ["b", "a"]) "a"
        (by decide)).1 (by decide)
    exact ⟨nd, h1, h2, by rw [h3]; decide⟩
  · exact (claim8_search_contract (insertList .nil ["b", "a"]) "x"
      (by decide)).2 (by decide)

/-- C9: inserting c, b, a in order triggers exactly one right rotation and
no left rotation - zero rotations on the first two inserts, one right
rotation on the third - and the result has root key "b" with in-order
sequence a,b,c; the instrumented run computes the same tree as the plain
`insert` chain. -/
theorem claim9_rotation_scenario :
    (insertC .nil "c").2 = (0, 0) ∧
    (insertC (insertC .nil "c").1 "b").2 = (0, 0) ∧
    (insertC (insertC (insertC .nil "c").1 "b").1 "a").2 = (1, 0) ∧
    wordOf (insertC (insertC (insertC .nil "c").1 "b").1 "a").1 = "b" ∧
    keys (insertC (insertC (insertC .nil "c").1 "b").1 "a").1 =
      ["a", "b", "c"] ∧
    (insertC (insertC (insertC .nil "c").1 "b").1 "a").1 =
      insertList .nil ["c", "b", "a"] := by
  decide

/-- C10: with correct height fields, `rebalance` never dereferences an
absent child: balance factor > 1 forces a present left child, < -1 a
present right child, and in the double-rotation cases the inner child the
rotation dereferences is present as well (and the first rotation's result,
reassigned to the child slot, is never NULL); `height` and `getBalance`
are total with value 0 on an absent node. -/
theorem claim10_rebalance_safety (t : Tree) (hh : heightsOk t = true) :
    (getBalance t > 1 → leftOf t ≠ .nil) ∧
    (getBalance t < -1 → rightOf t ≠ .nil) ∧
    (getBalance t > 1 ∧ getBalance (leftOf t) < 0 →
      rightOf (leftOf t) ≠ .nil ∧ rotateLeft (leftOf t) ≠ .nil) ∧
    (getBalance t < -1 ∧ getBalance (rightOf t) > 0 →
      leftOf (rightOf t) ≠ .nil ∧ rotateRight (rightOf t) ≠ .nil) ∧
    height .nil = 0 ∧ getBalance .nil = 0 := by
  cases t with
  | nil =>
    refine ⟨?_, ?_, ?_, ?_, rfl, rfl⟩ <;> intro hx
    · simp [getBalance] at hx
    · simp [getBalance] at hx
    · simp [getBalance] at hx
    · simp [getBalance] at hx
  | node w c h l r =>
    obtain ⟨hhh, hhl, hhr⟩ := heightsOk_node.mp hh
    have hHl : height l = realHeight l := height_eq_realHeight hhl
    have hHr : height r = realHeight r := height_eq_realHeight hhr
    have hgb : getBalance (Tree.node w c h l r) = height l - height r := rfl
    have hl0 := realHeight_nonneg l
    have hr0 := realHeight_nonneg r
    simp only [leftOf, rightOf]
    refine ⟨?_, ?_, ?_, ?_, rfl, rfl⟩
    · intro hx
      rw [hgb] at hx
      exact realHeight_pos_ne_nil (by omega)
    · intro hx
      rw [hgb] at hx
      exact realHeight_pos_ne_nil (by omega)
    · rintro ⟨hx, hy⟩
      rw [hgb] at hx
      have hlne : l ≠ .nil := realHeight_pos_ne_nil (by omega)
      cases l with
      | nil => exact absurd rfl hlne
      | node lw lc lh ll lr =>
        obtain ⟨hlh, hll, hlr⟩ := heightsOk_node.mp hhl
        have h1 : height ll = realHeight ll := height_eq_realHeight hll
        have h2 : height lr = realHeight lr := height_eq_realHeight hlr
        have hgbl : getBalance (Tree.node lw lc lh ll lr) =
            height ll - height lr := rfl
        rw [hgbl] at hy
        have := realHeight_nonneg ll
        constructor
        · simp only [rightOf]
          exact realHeight_pos_ne_nil (by omega)
        · cases lr with
          | nil =>
            have : realHeight (Tree.nil) = 0 := rfl
            omega
          | node a b e f g => simp [rotateLeft]
    · rintro ⟨hx, hy⟩
      rw [hgb] at hx
      have hrne : r ≠ .nil := realHeight_pos_ne_nil (by omega)
      cases r with
      | nil => exact absurd rfl hrne
      | node rw2 rc2 rh2 rl2 rr2 =>
        obtain ⟨hrh, hrl, hrr⟩ := heightsOk_node.mp hhr
        have h1 : height rl2 = realHeight rl2 := height_eq_realHeight hrl
        have h2 : height rr2 = realHeight rr2 := height_eq_realHeight hrr
        have hgbr : getBalance (Tree.node rw2 rc2 rh2 rl2 rr2) =
            height rl2 - height rr2 := rfl
        rw [hgbr] at hy
        have := realHeight_nonneg rr2
        constructor
        · simp only [leftOf]
          exact realHeight_pos_ne_nil (by omega)
        · cases rl2 with
          | nil =>
            have : realHeight (Tree.nil) = 0 := rfl
            omega
          | node a b e f g => simp [rotateRight]

/-- C10 witness: a concrete Left-Right-shaped tree with correct heights;
the balance factor is 2, the left child's is -1, and the dereferenced
children exist. -/
theorem claim10_witness :
    rightOf (leftOf (Tree.node "d" 1 3
      (Tree.node "b" 1 2 .nil (Tree.node "c" 1 1 .nil .nil)) .nil)) ≠
        .nil ∧
    rotateLeft (leftOf (Tree.node "d" 1 3
      (Tree.node "b" 1 2 .nil (Tree.node "c" 1 1 .nil .nil)) .nil)) ≠
        .nil :=
  (claim10_rebalance_safety _ (by decide)).2.2.1 ⟨by decide, by decide⟩

end AVL
